import Mathlib

/-!
Shallow embedding of the media-pipeline core of the video-toolbox web
application, together with theorems settling the specification claims.

Numbers that the JavaScript source manipulates as IEEE doubles are modelled
as exact rationals (`ℚ`); `Math.floor` is `Int.floor`, `Math.round x` is
`Int.floor (x + 1/2)` (JavaScript rounds ties toward +∞), and the integer
quantities (segment counts, pixel sizes, percentages) are `ℤ`/`ℕ`.
Strings are Lean `String`s, with the JavaScript string operations
(`split`, `replace` with the extension regex, `padStart`) re-implemented
over `List Char`.
-/

/-- Model of JavaScript `Math.round`: round half toward positive infinity. -/
def jsRound (q : ℚ) : ℤ := ⌊q + 1 / 2⌋

/-! ## Output naming (frame-extractor/functions.ts lines 72-75, audio-splitter lines 140-164, 227) -/

/-- Model of `file.name.replace(/\.[^/.]+$/, "")`: strip a trailing
`.ext` where `ext` is a nonempty run of characters other than `.` and `/`. -/
def stripExt (name : String) : String :=
  let rev := name.data.reverse
  let ext := rev.takeWhile fun c => decide (c ≠ '.' ∧ c ≠ '/')
  if (rev.drop ext.length).head? = some '.' ∧ ext ≠ [] then
    String.mk ((rev.drop (ext.length + 1)).reverse)
  else name

/-- Model of JavaScript `s.padStart(3, "0")`. -/
def padStart3 (s : String) : String :=
  if s.length ≥ 3 then s else String.mk (List.replicate (3 - s.length) '0') ++ s

/-- Model of `name.split(".").pop()`: the suffix after the last dot
(the whole string when there is no dot). -/
def lastSplitPiece (name : String) : String :=
  String.mk ((name.data.reverse.takeWhile fun c => decide (c ≠ '.')).reverse)

/-- Model of `file.name.split(".").pop() || "mp3"` (audio-splitter line 141):
the source file's extension, defaulting to `"mp3"` when the piece is falsy. -/
def fileExt (name : String) : String :=
  if lastSplitPiece name = "" then "mp3" else lastSplitPiece name

inductive FramePosition where
  | first
  | last
deriving DecidableEq

inductive ImageFormat where
  | png
  | jpeg
deriving DecidableEq

/-- Extension string chosen in frame-extractor/functions.ts line 59. -/
def imageExtension : ImageFormat → String
  | .png => "png"
  | .jpeg => "jpeg"

/-- Artifact name built by `extractFrameFromVideo`
(frame-extractor/functions.ts lines 72-75). -/
def frameFileName (name : String) (position : FramePosition) (format : ImageFormat) : String :=
  let baseName := stripExt name
  let positionSuffix := match position with
    | .last => "last-frame"
    | .first => "first-frame"
  baseName ++ "_" ++ positionSuffix ++ "." ++ imageExtension format

/-- Artifact name built for segment `i` (0-based loop index) by `splitAudio`
(audio-splitter functions.ts line 227). -/
def segmentFileName (name : String) (i : ℕ) : String :=
  stripExt name ++ "-segment-" ++ padStart3 (toString (i + 1)) ++ "." ++ fileExt name

/-! ## GIF dimension policy (video-to-gif/functions.ts lines 97-114) -/

/-- Model of `calculateDimensions`: round the scaled size, floor it at 10,
then force it even via `Math.round(w / 2) * 2`. -/
def calculateDimensions (originalWidth originalHeight : ℕ) (scale : ℚ) : ℤ × ℤ :=
  let width := jsRound (originalWidth * scale)
  let height := jsRound (originalHeight * scale)
  let width := max width 10
  let height := max height 10
  let width := jsRound ((width : ℚ) / 2) * 2
  let height := jsRound ((height : ℚ) / 2) * 2
  (width, height)

/-! ## Seek-time policies -/

/-- Seek time chosen by `extractFrameFromVideo` (frame-extractor/functions.ts
lines 32-46): `0.01` for the first frame, `max 0 (duration - 0.1)` for the
last frame. -/
def extractFrameSeekTime (position : FramePosition) (duration : ℚ) : ℚ :=
  match position with
  | .first => 1 / 100
  | .last => max 0 (duration - 1 / 10)

/-- Seek time used for each sampled frame by `convertVideoToGif`
(video-to-gif/functions.ts line 208): `Math.min(time, video.duration - 0.01)`. -/
def gifSeekTime (duration time : ℚ) : ℚ := min time (duration - 1 / 100)

/-! ## Segment planning (audio-splitter functions.ts lines 119-183) -/

/-- One planned ffmpeg invocation of the audio splitter: the `-ss` argument,
the `-t` argument, and the 1-based segment number used in output names. -/
structure SegmentCmd where
  startTime : ℚ
  nominalDuration : ℚ
  index : ℕ
deriving DecidableEq

/-- Planned segment list of `splitAudio`: `totalSegments =
Math.ceil(duration / segmentLength)` (line 128) invocations, segment `i`
getting `-ss (i * segmentLength)` and `-t segmentLength` (lines 162-183). -/
def splitAudioSegments (duration segmentLength : ℚ) : List SegmentCmd :=
  let totalSegments := (⌈duration / segmentLength⌉).toNat
  (List.range totalSegments).map fun (i : ℕ) =>
    { startTime := (i : ℚ) * segmentLength
      nominalDuration := segmentLength
      index := i + 1 }

/-- Validation and planning part of `splitAudio` (lines 119-128): reject a
non-positive segment length or one exceeding the duration, else plan. -/
def splitAudioPlan (duration segmentLength : ℚ) : Except String (List SegmentCmd) :=
  if segmentLength ≤ 0 then
    .error "Segment length must be greater than 0"
  else if segmentLength > duration then
    .error "Segment length cannot be greater than audio duration"
  else
    .ok (splitAudioSegments duration segmentLength)

/-- Timing block of `convertVideoToGif` (video-to-gif/functions.ts
lines 177-182 and 204-205): clamped duration, frame count
`Math.max(1, Math.floor(duration * fps))`, and the unclamped target time
of each sampled frame. -/
structure GifTiming where
  duration : ℚ
  totalFrames : ℤ
  frameTimes : List ℚ
deriving DecidableEq

def gifTiming (startTime maxDuration videoDuration fps : ℚ) : GifTiming :=
  let endTime := min (startTime + maxDuration) videoDuration
  let duration := endTime - startTime
  let frameInterval := 1 / fps
  let totalFrames := max 1 ⌊duration * fps⌋
  { duration := duration
    totalFrames := totalFrames
    frameTimes := (List.range totalFrames.toNat).map fun (i : ℕ) =>
      startTime + (i : ℚ) * frameInterval }

/-! ## Multi-file batch (frame-extractor/functions.ts lines 109-130) -/

/-- Model of the `extractFrames` batch loop: each file's extraction outcome
is given by `extract`; a failure is caught and the loop continues, so the
function is total and returns only the successful artifacts in input order. -/
def extractFrames {α β : Type} (extract : α → Except String β) : List α → List β
  | [] => []
  | f :: rest =>
    match extract f with
    | .ok a => a :: extractFrames extract rest
    | .error _ => extractFrames extract rest

/-- Percent computed for one engine progress callback during audio
extraction: `40 + Math.floor(ffmpegProgress * 0.5)`
(audio-extractor functions.ts line 407). -/
def extractProgressPercent (p : ℚ) : ℤ := 40 + ⌊p * (1 / 2)⌋

/-! ## Progress events -/

/-- Stages named by the three pipelines' progress interfaces. -/
inductive Stage where
  | loading
  | splitting
  | extracting
  | encoding
  | complete
deriving DecidableEq

/-- One emitted progress event: its stage and its percent value. -/
structure PEvent where
  stage : Stage
  percent : ℤ
deriving DecidableEq

def percents (l : List PEvent) : List ℤ := l.map PEvent.percent

/-- Percent of the per-segment emission in the splitting loop:
`20 + Math.floor((i / totalSegments) * 70)` (audio-splitter line 168). -/
def splitProgressPercent (N i : ℕ) : ℤ := 20 + ⌊(i : ℚ) / (N : ℚ) * 70⌋

/-- Ordered progress events of one successful `splitAudio` run with `N`
planned segments (lines 109-251): loading 0, loading 10, splitting 20,
one splitting event per segment, then complete 100. -/
def splitAudioEvents (N : ℕ) : List PEvent :=
  ([⟨.loading, 0⟩, ⟨.loading, 10⟩, ⟨.splitting, 20⟩] ++
    (List.range N).map fun i => ⟨.splitting, splitProgressPercent N i⟩) ++
  [⟨.complete, 100⟩]

/-- Ordered progress events of one successful `extractAudioFromVideo` run
whose engine progress callback fired with the values `ps`
(audio-extractor lines 378-502). -/
def extractAudioEvents (ps : List ℚ) : List PEvent :=
  ([⟨.loading, 0⟩, ⟨.loading, 20⟩, ⟨.extracting, 40⟩] ++
    ps.map (fun p => ⟨.extracting, extractProgressPercent p⟩) ++ [⟨.encoding, 90⟩]) ++
  [⟨.complete, 100⟩]

/-- Percent of the per-frame emission in the GIF extraction loop:
`Math.round(((i + 1) / totalFrames) * 100)` (video-to-gif line 220). -/
def gifFramePercent (totalFrames i : ℕ) : ℤ :=
  jsRound (((i : ℚ) + 1) / (totalFrames : ℚ) * 100)

/-- Ordered progress events of one successful `convertVideoToGif` run with
`totalFrames` sampled frames and encoder progress callbacks `ps`
(video-to-gif lines 159-280): loading 0, loading 100, extracting 0, one
extracting event per frame, encoding 0, one encoding event per callback,
then complete 100. -/
def gifEvents (totalFrames : ℕ) (ps : List ℚ) : List PEvent :=
  ([⟨.loading, 0⟩, ⟨.loading, 100⟩, ⟨.extracting, 0⟩] ++
    ((List.range totalFrames).map fun i => ⟨.extracting, gifFramePercent totalFrames i⟩) ++
    [⟨.encoding, 0⟩] ++ ps.map fun p => ⟨.encoding, jsRound (p * 100)⟩) ++
  [⟨.complete, 100⟩]

/-- Whole-run monotonicity of a percent sequence. -/
def nonDecr (l : List ℤ) : Prop := l.Chain' (· ≤ ·)

/-- Within-stage monotonicity: adjacent events of the same stage have
non-decreasing percent. -/
def stageNonDecr (l : List PEvent) : Prop :=
  l.Chain' fun a b => a.stage = b.stage → a.percent ≤ b.percent

/-! ## Virtual-filesystem staging (audio-splitter lines 139-263, audio-extractor lines 393-520) -/

/-- Staged input name of `splitAudio` (line 140) and of
`extractAudioFromVideo` (line 394): `"input." + extension`. -/
def stagedInputName (ext : String) : String := "input." ++ ext

/-- Staged per-segment output name of `splitAudio` (line 164). -/
def splitOutputName (i : ℕ) (ext : String) : String :=
  "output-segment-" ++ padStart3 (toString (i + 1)) ++ "." ++ ext

/-- Staged output name of `extractAudioFromVideo` (line 395). -/
def extractOutputName (fmt : String) : String := "output." ++ fmt

/-- Virtual-filesystem trace of the `splitAudio` loop from segment `i` with
`r` segments remaining: each successful iteration stages its output via
`exec` and deletes it after reading (line 239); after the loop the input is
deleted (line 243); if `exec` fails at a segment the error propagates with
no deletion (lines 186-193 and 254-263). Returns whether the run succeeded
and the staged entries left behind. -/
def splitAudioFSLoop (ext : String) (failAt : Option ℕ) :
    ℕ → ℕ → List String → Bool × List String
  | _, 0, fs => (true, fs.erase (stagedInputName ext))
  | i, r + 1, fs =>
    if failAt = some i then
      (false, fs)
    else
      splitAudioFSLoop ext failAt (i + 1) r
        ((fs ++ [splitOutputName i ext]).erase (splitOutputName i ext))

/-- Virtual filesystem left by a `splitAudio` run over `N` planned segments,
where `failAt = some k` makes the ffmpeg invocation of segment `k` fail. -/
def splitAudioFS (N : ℕ) (ext : String) (failAt : Option ℕ) : Bool × List String :=
  splitAudioFSLoop ext failAt 0 N [stagedInputName ext]

/-- Virtual filesystem left by an `extractAudioFromVideo` run: stage the
input (line 397), run ffmpeg producing the output, then on success read and
delete input and output (lines 489-490); on exec failure the error
propagates with no deletion (lines 444-451 and 511-520). -/
def extractAudioFS (ext fmt : String) (execFails : Bool) : Bool × List String :=
  let fs := [stagedInputName ext]
  if execFails then
    (false, fs)
  else
    (true, (((fs ++ [extractOutputName fmt]).erase (stagedInputName ext)).erase
      (extractOutputName fmt)))

/-! ## Transcode engine singleton (`getFFmpeg`, part_002 lines 40-98 and 309-367)

The audio-splitter module and the audio-extractor module each declare their
own module-scoped `ffmpegInstance` / `ffmpegLoading` / `ffmpegLoadPromise`
(lines 41-43 and 310-312) with a textually identical `getFFmpeg`. One module
copy is modelled as a small-step system: JavaScript runs the synchronous
prefix of `getFFmpeg` atomically (interleaving happens only at awaits), the
network load is modelled as succeeding, and engines are numbered in creation
order so that instance identity is observable. -/

/-- Control point of one caller of `getFFmpeg`: about to run the function's
synchronous prefix, suspended awaiting the load promise, or returned with
an engine id. -/
inductive CallerPC where
  | entry
  | waiting
  | ret (engine : ℕ)
deriving DecidableEq

/-- Module-scoped singleton state: `ffmpegInstance` (id of the cached
engine), `ffmpegLoading`, whether `ffmpegLoadPromise` is non-null, the id
the in-flight load will store, plus counters of constructed engines and
started load sequences. -/
structure ModState where
  inst : Option ℕ
  loading : Bool
  promise : Bool
  pending : Option ℕ
  created : ℕ
  starts : ℕ
deriving DecidableEq

/-- Initial module state (lines 41-43: `null`, `false`, `null`). -/
def initMod : ModState :=
  { inst := none, loading := false, promise := false, pending := none,
    created := 0, starts := 0 }

/-- Atomic synchronous prefix of `getFFmpeg` (lines 48-59 and the IIFE body
up to its first await): return the cached engine (line 49), join an
in-flight load (line 53), or construct a new engine, set `ffmpegLoading`,
publish `ffmpegLoadPromise` and suspend on it (lines 58-59, 96). -/
def acquireEntry (m : ModState) : ModState × CallerPC :=
  match m.inst with
  | some v => (m, .ret v)
  | none =>
    if m.loading && m.promise then
      (m, .waiting)
    else
      ({ inst := none, loading := true, promise := true, pending := some m.created,
         created := m.created + 1, starts := m.starts + 1 }, .waiting)

/-- Successful completion of the in-flight load (lines 84-85): store the
engine and clear `ffmpegLoading`; `ffmpegLoadPromise` stays non-null. -/
def loadFinish (m : ModState) (e : ℕ) : ModState :=
  { m with inst := some e, loading := false, pending := none }

/-- One module copy together with two concurrent callers. -/
structure Sys where
  m : ModState
  a : CallerPC
  b : CallerPC
deriving DecidableEq

def initSys : Sys := { m := initMod, a := .entry, b := .entry }

/-- Interleaving steps: either caller runs its atomic entry prefix, the
in-flight load completes, or a caller suspended on the now-settled promise
resumes and returns `ffmpegInstance!` (lines 55 and 97). -/
inductive Step : Sys → Sys → Prop where
  | enterA (s : Sys) (h : s.a = .entry) :
      Step s ⟨(acquireEntry s.m).1, (acquireEntry s.m).2, s.b⟩
  | enterB (s : Sys) (h : s.b = .entry) :
      Step s ⟨(acquireEntry s.m).1, s.a, (acquireEntry s.m).2⟩
  | finish (s : Sys) (e : ℕ) (h : s.m.pending = some e) :
      Step s ⟨loadFinish s.m e, s.a, s.b⟩
  | wakeA (s : Sys) (v : ℕ) (h1 : s.a = .waiting) (h2 : s.m.pending = none)
      (h3 : s.m.inst = some v) : Step s ⟨s.m, .ret v, s.b⟩
  | wakeB (s : Sys) (v : ℕ) (h1 : s.b = .waiting) (h2 : s.m.pending = none)
      (h3 : s.m.inst = some v) : Step s ⟨s.m, s.a, .ret v⟩

/-- States of one module copy reachable from page load. -/
def Reachable (s : Sys) : Prop := Relation.ReflTransGen Step initSys s

/-- Inductive invariant of one module copy. -/
def SysInv (s : Sys) : Prop :=
  s.m.created = s.m.starts ∧
  (∀ v, s.a = .ret v → v = 0 ∧ s.m.inst = some 0) ∧
  (∀ v, s.b = .ret v → v = 0 ∧ s.m.inst = some 0) ∧
  ((s.m.starts = 0 ∧ s.m = initMod ∧ s.a = .entry ∧ s.b = .entry) ∨
   (s.m.starts = 1 ∧ s.m.promise = true ∧
     ((s.m.pending = some 0 ∧ s.m.loading = true ∧ s.m.inst = none) ∨
      (s.m.pending = none ∧ s.m.loading = false ∧ s.m.inst = some 0))))

/-- The page runs both tool modules: its engine state is a pair of
independent module copies, and a page step is a step of either module. -/
def PageStep (p q : Sys × Sys) : Prop :=
  (Step p.1 q.1 ∧ p.2 = q.2) ∨ (Step p.2 q.2 ∧ p.1 = q.1)

def PageReachable (p : Sys × Sys) : Prop :=
  Relation.ReflTransGen PageStep (initSys, initSys) p

/-- Engines constructed on the page: the two module-scoped counters summed. -/
def pageEnginesCreated (p : Sys × Sys) : ℕ := p.1.m.created + p.2.m.created

/-- Module state after one caller acquires the engine and the load
completes: engine 0 cached, one load started, one engine created. -/
def acquireDoneSys : Sys :=
  { m := { inst := some 0
           loading := false
           promise := true
           pending := none
           created := 1
           starts := 1 }
    a := .ret 0
    b := .entry }

/-- State after both callers of one module have returned engine 0. -/
def bothDoneSys : Sys :=
  { m := { inst := some 0
           loading := false
           promise := true
           pending := none
           created := 1
           starts := 1 }
    a := .ret 0
    b := .ret 0 }

/-! ## Theorems -/

/-! ## Small arithmetic helpers -/

theorem jsRound_le_jsRound {x y : ℚ} (h : x ≤ y) : jsRound x ≤ jsRound y := by
  unfold jsRound
  exact Int.floor_le_floor (by linarith)

theorem jsRound_intCast (z : ℤ) : jsRound ((z : ℚ)) = z := by
  unfold jsRound
  rw [show (z : ℚ) + 1 / 2 = (z : ℚ) + (1 / 2 : ℚ) by ring]
  rw [Int.floor_int_add]
  norm_num

theorem jsRound_nonneg {x : ℚ} (h : 0 ≤ x) : 0 ≤ jsRound x := by
  unfold jsRound
  rw [Int.le_floor]
  push_cast
  linarith

/-- Behaviour of the even-forcing step `Math.round(n / 2) * 2` on an integer. -/
theorem evenRound_spec (n : ℤ) :
    2 ∣ jsRound ((n : ℚ) / 2) * 2 ∧ |jsRound ((n : ℚ) / 2) * 2 - n| ≤ 1 ∧
      (10 ≤ n → 10 ≤ jsRound ((n : ℚ) / 2) * 2) := by
  rcases Int.even_or_odd n with ⟨k, hk⟩ | ⟨k, hk⟩
  · have hdiv : ((n : ℚ)) / 2 = (k : ℚ) := by
      subst hk; push_cast; ring
    have hr : jsRound ((n : ℚ) / 2) = k := by rw [hdiv, jsRound_intCast]
    refine ⟨⟨jsRound ((n : ℚ) / 2), mul_comm _ _⟩, ?_, ?_⟩
    · have hz : jsRound ((n : ℚ) / 2) * 2 - n = 0 := by rw [hr, hk]; ring
      rw [hz]; norm_num
    · intro h10; rw [hr]; omega
  · have hdiv : ((n : ℚ)) / 2 + 1 / 2 = ((k + 1 : ℤ) : ℚ) := by
      subst hk; push_cast; ring
    have hr : jsRound ((n : ℚ) / 2) = k + 1 := by
      unfold jsRound; rw [hdiv, Int.floor_intCast]
    refine ⟨⟨jsRound ((n : ℚ) / 2), mul_comm _ _⟩, ?_, ?_⟩
    · have hz : jsRound ((n : ℚ) / 2) * 2 - n = 1 := by rw [hr, hk]; ring
      rw [hz]; norm_num
    · intro h10; rw [hr]; omega

/-- C4: for every originalWidth, originalHeight and scale, `calculateDimensions`
rounds the scaled dimension, floors it at 10, then rounds to a nearest even
integer (within distance 1 of the post-floor value), so every returned
dimension is an even integer at least 10; at the spec's example,
width 101 with scale 0.5 yields 52. -/
theorem C4_dimension_scaling :
    (∀ (ow oh : ℕ) (scale : ℚ),
      2 ∣ (calculateDimensions ow oh scale).1 ∧ 10 ≤ (calculateDimensions ow oh scale).1 ∧
      |(calculateDimensions ow oh scale).1 - max (jsRound ((ow : ℚ) * scale)) 10| ≤ 1 ∧
      2 ∣ (calculateDimensions ow oh scale).2 ∧ 10 ≤ (calculateDimensions ow oh scale).2 ∧
      |(calculateDimensions ow oh scale).2 - max (jsRound ((oh : ℚ) * scale)) 10| ≤ 1) ∧
    calculateDimensions 101 101 (1 / 2) = (52, 52) := by
  constructor
  · intro ow oh scale
    have hw := evenRound_spec (max (jsRound ((ow : ℚ) * scale)) 10)
    have hh := evenRound_spec (max (jsRound ((oh : ℚ) * scale)) 10)
    have hw10 : (10 : ℤ) ≤ max (jsRound ((ow : ℚ) * scale)) 10 := le_max_right _ _
    have hh10 : (10 : ℤ) ≤ max (jsRound ((oh : ℚ) * scale)) 10 := le_max_right _ _
    simp only [calculateDimensions]
    exact ⟨hw.1, hw.2.2 hw10, hw.2.1, hh.1, hh.2.2 hh10, hh.2.1⟩
  · simp only [calculateDimensions, jsRound]
    norm_num [Int.floor_eq_iff]

/-- C5 counterexample: the GIF frame-sampling path seeks with epsilon 0.01,
not 0.1 — a target equal to the duration (10) requests 9.99, not 9.9 —
and a negative target (-1) passes through unclamped instead of becoming 0.01. -/
theorem C5_seek_policy_counterexample :
    gifSeekTime 10 10 = 10 - 1 / 100 ∧ (10 - 1 / 100 : ℚ) ≠ 10 - 1 / 10 ∧
    gifSeekTime 10 (-1) = -1 ∧ (-1 : ℚ) ≠ 1 / 100 := by
  refine ⟨?_, by norm_num, ?_, by norm_num⟩
  · unfold gifSeekTime
    rw [min_eq_right (by norm_num)]
  · unfold gifSeekTime
    rw [min_eq_left (by norm_num)]

/-- C5 amended: the frame-extractor seeks to 0.01 for a first frame and to
`max 0 (duration - 0.1)` for a last frame (so `duration - 0.1` whenever
`duration ≥ 0.1`); the GIF path clamps each frame's seek to
`min target (duration - 0.01)` — epsilon 0.01 at end-of-stream and no
lower clamp for negative targets. -/
theorem C5_seek_policy_amended :
    (∀ duration : ℚ, extractFrameSeekTime .first duration = 1 / 100) ∧
    (∀ duration : ℚ, 1 / 10 ≤ duration →
      extractFrameSeekTime .last duration = duration - 1 / 10) ∧
    (∀ duration target : ℚ, duration ≤ target →
      gifSeekTime duration target = duration - 1 / 100) ∧
    (∀ duration target : ℚ, target ≤ duration - 1 / 100 →
      gifSeekTime duration target = target) := by
  refine ⟨fun _ => rfl, fun d hd => ?_, fun d t ht => ?_, fun d t ht => ?_⟩
  · unfold extractFrameSeekTime
    rw [max_eq_right (by linarith)]
  · unfold gifSeekTime
    rw [min_eq_right (by linarith)]
  · unfold gifSeekTime
    rw [min_eq_left ht]

/-- C5 amended witness at duration 10 and targets 10 and -1. -/
theorem C5_seek_policy_amended_witness :
    extractFrameSeekTime .last 10 = 10 - 1 / 10 ∧
    gifSeekTime 10 10 = 10 - 1 / 100 ∧ gifSeekTime 10 (-1) = -1 :=
  ⟨C5_seek_policy_amended.2.1 10 (by norm_num),
   C5_seek_policy_amended.2.2.1 10 10 (by norm_num),
   C5_seek_policy_amended.2.2.2 10 (-1) (by norm_num)⟩

/-- C6: `splitAudio` planning fails exactly when the segment length is
non-positive or exceeds the duration, and at the boundary
`segmentLength = duration` (with positive duration) it succeeds with
exactly one planned segment. -/
theorem C6_segment_length_validation (duration segmentLength : ℚ) :
    ((splitAudioPlan duration segmentLength).isOk = true ↔
      0 < segmentLength ∧ segmentLength ≤ duration) ∧
    (0 < duration →
      splitAudioPlan duration duration = .ok [⟨0, duration, 1⟩]) := by
  constructor
  · unfold splitAudioPlan
    split_ifs with h1 h2
    · simp only [Except.isOk]
      constructor
      · intro h; cases h
      · rintro ⟨hp, _⟩; linarith
    · simp only [Except.isOk]
      constructor
      · intro h; cases h
      · rintro ⟨_, hle⟩; linarith
    · exact ⟨fun _ => ⟨lt_of_not_le h1, le_of_not_lt h2⟩, fun _ => rfl⟩
  · intro hd
    unfold splitAudioPlan
    rw [if_neg (by linarith), if_neg (by simp)]
    unfold splitAudioSegments
    rw [div_self (ne_of_gt hd), Int.ceil_one]
    norm_num [List.range_succ, SegmentCmd.mk.injEq]

/-- C6 witness: at duration 2 and segment length 2 the plan is one segment. -/
theorem C6_segment_length_validation_witness :
    splitAudioPlan 2 2 = .ok [⟨0, 2, 1⟩] :=
  (C6_segment_length_validation 2 2).2 (by norm_num)

/-- C9: output names are the stripped base name plus the semantic suffix plus
the output extension — concretely `"clip.mov"`, position `last`, format `png`
yields `"clip_last-frame.png"` — and segment outputs are numbered from 1,
zero-padded to at least 3 digits. -/
theorem C9_output_naming :
    frameFileName "clip.mov" .last .png = "clip_last-frame.png" ∧
    segmentFileName "clip.mov" 0 = "clip-segment-001.mov" ∧
    (∀ (name : String) (i : ℕ), segmentFileName name i =
      stripExt name ++ "-segment-" ++ padStart3 (toString (i + 1)) ++ "." ++ fileExt name) ∧
    (∀ s : String, 3 ≤ (padStart3 s).length) ∧
    padStart3 (toString (0 + 1)) = "001" ∧ padStart3 (toString (99 + 1)) = "100" := by
  refine ⟨by decide, by decide, fun name i => rfl, fun s => ?_, by decide, by decide⟩
  unfold padStart3
  split_ifs with h
  · exact h
  · rw [String.length_append]
    simp only [String.length_mk, List.length_replicate]
    omega

/-- C10: for every engine progress value p in [0,1] the extracting-stage
percent is 40 + floor(p * 0.5) = 40, so the intended 40-90 band is never
traversed. -/
theorem C10_extracting_percent_constant (p : ℚ) (h0 : 0 ≤ p) (h1 : p ≤ 1) :
    extractProgressPercent p = 40 := by
  unfold extractProgressPercent
  have : ⌊p * (1 / 2)⌋ = 0 := by
    rw [Int.floor_eq_iff]
    constructor
    · push_cast; linarith
    · push_cast; linarith
  omega

/-- C10 witness at p = 1 (the engine reporting completion still shows 40). -/
theorem C10_extracting_percent_constant_witness : extractProgressPercent 1 = 40 :=
  C10_extracting_percent_constant 1 (by norm_num) (by norm_num)

/-- C3: the multi-file frame-extraction batch is total (no exception escapes),
returns exactly the successful artifacts in input order, and with 3 inputs of
which input 2 fails it returns the two artifacts of inputs 1 and 3. -/
theorem C3_batch_failure_isolation :
    (∀ (α β : Type) (extract : α → Except String β) (files : List α),
      extractFrames extract files = files.filterMap fun f => (extract f).toOption) ∧
    extractFrames (fun n : ℕ => if n = 2 then .error "corrupt file" else .ok (10 * n))
      [1, 2, 3] = [10, 30] := by
  constructor
  · intro α β extract files
    induction files with
    | nil => rfl
    | cons f rest ih =>
      rw [List.filterMap_cons]
      unfold extractFrames
      cases extract f with
      | ok a => simp [Except.toOption, ih]
      | error e => simp [Except.toOption, ih]
  · decide

/-- C1 counterexample: at duration 5 and segment length 2 the audio splitter
plans 3 segments whose `-t` arguments are all 2, so the nominal durations sum
to 6, not 5, and the final segment's nominal duration is 2, not
5 - (3-1)*2 = 1; and at clamped duration 1.5 with fps 1 the GIF path samples
`max 1 (floor (1.5 * 1)) = 1` frame, not `ceil (1.5 / 1) = 2`. -/
theorem C1_segment_planner_counterexample :
    ((splitAudioSegments 5 2).map SegmentCmd.nominalDuration).sum = 6 ∧ (6 : ℚ) ≠ 5 ∧
    (splitAudioSegments 5 2).getLast? = some ⟨4, 2, 3⟩ ∧ (2 : ℚ) ≠ 5 - (3 - 1) * 2 ∧
    (gifTiming 0 10 (3 / 2) 1).totalFrames = 1 ∧ (1 : ℤ) ≠ ⌈(3 / 2 : ℚ) / 1⌉ := by
  have hceil : (⌈(5 : ℚ) / 2⌉ : ℤ) = 3 := by
    rw [Int.ceil_eq_iff]
    norm_num
  have hseg : splitAudioSegments 5 2 = [⟨0, 2, 1⟩, ⟨2, 2, 2⟩, ⟨4, 2, 3⟩] := by
    unfold splitAudioSegments
    rw [hceil]
    norm_num [show List.range (Int.toNat 3) = [0, 1, 2] from rfl, SegmentCmd.mk.injEq]
  have hfl : ⌊((3 : ℚ) / 2)⌋ = 1 := by
    rw [Int.floor_eq_iff]
    norm_num
  refine ⟨?_, by norm_num, ?_, by norm_num, ?_, ?_⟩
  · rw [hseg]; norm_num
  · rw [hseg]; rfl
  · simp only [gifTiming]
    rw [min_eq_right (by norm_num : (3 / 2 : ℚ) ≤ 0 + 10)]
    rw [show ((3 : ℚ) / 2 - 0) * 1 = 3 / 2 by norm_num, hfl]
    exact max_self 1
  · have h2 : (⌈(3 / 2 : ℚ) / 1⌉ : ℤ) = 2 := by
      rw [Int.ceil_eq_iff]
      norm_num
    rw [h2]
    norm_num

/-- Indexing lemma for mapped ranges, used for the planners' unit lists. -/
theorem getElem?_range_map {β : Type} (f : ℕ → β) (n i : ℕ) (hi : i < n) :
    ((List.range n).map f)[i]? = some (f i) := by
  rw [List.getElem?_map, List.getElem?_range hi]
  rfl

/-- C1 amended: for valid inputs the audio splitter plans exactly
`ceil(duration / segmentLength)` ordered units with start offsets
`i * segmentLength`, but every unit's nominal `-t` duration is
`segmentLength` itself, so the nominal durations sum to
`ceil(duration / segmentLength) * segmentLength ≥ duration` rather than to
the duration; the GIF path's frame offsets are `startTime + i * (1/fps)`
while its frame count is `max 1 (floor (duration * fps))`. -/
theorem C1_segment_planner_amended (d sl : ℚ) (h0 : 0 < sl) (h1 : sl ≤ d) :
    (splitAudioSegments d sl).length = (⌈d / sl⌉).toNat ∧
    1 ≤ ⌈d / sl⌉ ∧
    (∀ i : ℕ, i < (splitAudioSegments d sl).length →
      (splitAudioSegments d sl)[i]? = some ⟨(i : ℚ) * sl, sl, i + 1⟩) ∧
    ((splitAudioSegments d sl).map SegmentCmd.nominalDuration).sum = (⌈d / sl⌉ : ℚ) * sl ∧
    d ≤ (⌈d / sl⌉ : ℚ) * sl ∧
    (∀ (st md vd fps : ℚ) (i : ℕ), i < (gifTiming st md vd fps).totalFrames.toNat →
      (gifTiming st md vd fps).frameTimes[i]? = some (st + (i : ℚ) * (1 / fps))) := by
  have hd : 0 < d := lt_of_lt_of_le h0 h1
  have hpos : 0 < ⌈d / sl⌉ := Int.ceil_pos.mpr (div_pos hd h0)
  refine ⟨?_, hpos, ?_, ?_, ?_, ?_⟩
  · simp [splitAudioSegments]
  · intro i hi
    have hi' : i < (⌈d / sl⌉).toNat := by
      simpa [splitAudioSegments] using hi
    exact getElem?_range_map _ _ _ hi'
  · have hmap : (splitAudioSegments d sl).map SegmentCmd.nominalDuration =
        List.replicate (⌈d / sl⌉).toNat sl := by
      simp [splitAudioSegments, List.map_map, Function.comp_def, List.map_const',
        List.length_range]
    rw [hmap, List.sum_replicate, nsmul_eq_mul]
    congr 1
    rw [show ((⌈d / sl⌉.toNat : ℕ) : ℚ) = ((⌈d / sl⌉.toNat : ℤ) : ℚ) by push_cast; ring]
    rw [Int.toNat_of_nonneg (le_of_lt hpos)]
  · have hle : d / sl ≤ (⌈d / sl⌉ : ℚ) := Int.le_ceil _
    calc d = d / sl * sl := (div_mul_cancel₀ d (ne_of_gt h0)).symm
      _ ≤ (⌈d / sl⌉ : ℚ) * sl := mul_le_mul_of_nonneg_right hle (le_of_lt h0)
  · intro st md vd fps i hi
    exact getElem?_range_map (fun j : ℕ => st + (j : ℚ) * (1 / fps))
      (gifTiming st md vd fps).totalFrames.toNat i hi

/-- C1 amended witness at duration 5, segment length 2. -/
theorem C1_segment_planner_amended_witness :
    (splitAudioSegments 5 2).length = (⌈(5 : ℚ) / 2⌉).toNat ∧
    (5 : ℚ) ≤ (⌈(5 : ℚ) / 2⌉ : ℚ) * 2 := by
  have h := C1_segment_planner_amended 5 2 (by norm_num) (by norm_num)
  exact ⟨h.1, h.2.2.2.2.1⟩

theorem chain'_le_map_range (f : ℕ → ℤ) (hf : ∀ i, f i ≤ f (i + 1)) (N : ℕ) :
    List.Chain' (· ≤ ·) ((List.range N).map f) := by
  cases N with
  | zero => simp
  | succ n =>
    rw [List.chain'_map, List.chain'_range_succ]
    exact fun m _ => hf m

theorem div_mul_le_div_mul {a b c k : ℚ} (hab : a ≤ b) (hc : 0 ≤ c) (hk : 0 ≤ k) :
    a / c * k ≤ b / c * k := by
  rcases eq_or_lt_of_le hc with h | h
  · rw [← h]
    simp
  · exact mul_le_mul_of_nonneg_right ((div_le_div_iff_of_pos_right h).mpr hab) hk

theorem splitProgressPercent_mono (N i : ℕ) :
    splitProgressPercent N i ≤ splitProgressPercent N (i + 1) := by
  unfold splitProgressPercent
  have : ((i : ℚ)) / (N : ℚ) * 70 ≤ ((i + 1 : ℕ) : ℚ) / (N : ℚ) * 70 := by
    apply div_mul_le_div_mul (by push_cast; linarith) (by positivity) (by norm_num)
  have := Int.floor_le_floor this
  omega

theorem splitProgressPercent_le_90 (N i : ℕ) (hi : i < N) :
    splitProgressPercent N i ≤ 90 := by
  unfold splitProgressPercent
  have hN : (0 : ℚ) < (N : ℚ) := by
    have : 0 < N := by omega
    exact_mod_cast this
  have hx : ((i : ℚ)) / (N : ℚ) * 70 ≤ 70 := by
    have h1 : ((i : ℚ)) / (N : ℚ) ≤ 1 := by
      rw [div_le_one hN]
      exact_mod_cast le_of_lt hi
    nlinarith
  have := Int.floor_le_floor hx
  rw [show ⌊(70 : ℚ)⌋ = 70 by norm_num] at this
  omega

theorem splitProgressPercent_zero (N : ℕ) : splitProgressPercent N 0 = 20 := by
  unfold splitProgressPercent
  norm_num

theorem gifFramePercent_mono (tf i : ℕ) :
    gifFramePercent tf i ≤ gifFramePercent tf (i + 1) := by
  unfold gifFramePercent
  apply jsRound_le_jsRound
  apply div_mul_le_div_mul (by push_cast; linarith) (by positivity) (by norm_num)

theorem gifFramePercent_nonneg (tf i : ℕ) : 0 ≤ gifFramePercent tf i := by
  unfold gifFramePercent
  apply jsRound_nonneg
  positivity

theorem chain'_le_replicate_append (n : ℕ) (x : ℤ) (l : List ℤ)
    (hl : l.Chain' (· ≤ ·)) (hx : ∀ y ∈ l.head?, x ≤ y) :
    (List.replicate n x ++ l).Chain' (· ≤ ·) := by
  induction n with
  | zero => simpa using hl
  | succ m ih =>
    rw [List.replicate_succ, List.cons_append, List.chain'_cons']
    refine ⟨?_, ih⟩
    intro y hy
    cases m with
    | zero =>
      simp only [List.replicate_zero, List.nil_append] at hy
      exact hx y hy
    | succ k =>
      rw [List.replicate_succ, List.cons_append] at hy
      simp only [List.head?_cons, Option.mem_def, Option.some.injEq] at hy
      omega

theorem splitAudioEvents_percents (N : ℕ) :
    percents (splitAudioEvents N) =
      ([0, 10, 20] ++ (List.range N).map (splitProgressPercent N)) ++ [100] := by
  simp [percents, splitAudioEvents, List.map_map, Function.comp_def]

theorem splitAudioEvents_nonDecr (N : ℕ) (hN : 1 ≤ N) :
    nonDecr (percents (splitAudioEvents N)) := by
  obtain ⟨n, rfl⟩ : ∃ n, N = n + 1 := ⟨N - 1, by omega⟩
  rw [splitAudioEvents_percents]
  unfold nonDecr
  refine List.chain'_append.mpr ⟨List.chain'_append.mpr ⟨?_, ?_, ?_⟩, ?_, ?_⟩
  · norm_num [List.chain'_cons]
  · exact chain'_le_map_range _ (splitProgressPercent_mono _) _
  · intro x hx y hy
    simp only [List.getLast?_cons_cons, List.getLast?_singleton, Option.mem_def,
      Option.some.injEq] at hx
    rw [List.range_succ_eq_map, List.map_cons, List.head?_cons] at hy
    simp only [Option.mem_def, Option.some.injEq] at hy
    rw [← hx, ← hy, splitProgressPercent_zero]
  · simp
  · intro x hx y hy
    simp only [List.head?_cons, Option.mem_def, Option.some.injEq] at hy
    rw [List.getLast?_append_of_ne_nil _ (by simp), List.range_succ, List.map_append,
      List.map_singleton, List.getLast?_concat] at hx
    simp only [Option.mem_def, Option.some.injEq] at hx
    have := splitProgressPercent_le_90 (n + 1) n (by omega)
    omega

/-- The engine progress percent during audio extraction is 40 on [0, 1]. -/
theorem extractProgressPercent_eq_40 {p : ℚ} (h0 : 0 ≤ p) (h1 : p ≤ 1) :
    extractProgressPercent p = 40 := by
  unfold extractProgressPercent
  have : ⌊p * (1 / 2)⌋ = 0 := by
    rw [Int.floor_eq_iff]
    constructor
    · push_cast; linarith
    · push_cast; linarith
  omega

theorem extractAudioEvents_percents (ps : List ℚ) (hps : ∀ p ∈ ps, 0 ≤ p ∧ p ≤ 1) :
    percents (extractAudioEvents ps) =
      ([0, 20, 40] ++ (List.replicate ps.length 40 ++ [90])) ++ [100] := by
  have hmap : ps.map (fun p => extractProgressPercent p) = List.replicate ps.length 40 := by
    rw [List.map_congr_left fun p hp => extractProgressPercent_eq_40 (hps p hp).1 (hps p hp).2]
    exact List.map_const' ps 40
  simp only [percents, extractAudioEvents, List.map_append, List.map_map, List.map_cons,
    List.map_nil, Function.comp_def]
  rw [hmap]
  simp [List.append_assoc]

theorem extractAudioEvents_nonDecr (ps : List ℚ) (hps : ∀ p ∈ ps, 0 ≤ p ∧ p ≤ 1) :
    nonDecr (percents (extractAudioEvents ps)) := by
  rw [extractAudioEvents_percents ps hps]
  unfold nonDecr
  refine List.chain'_append.mpr ⟨List.chain'_append.mpr ⟨?_, ?_, ?_⟩, ?_, ?_⟩
  · norm_num [List.chain'_cons]
  · refine chain'_le_replicate_append _ _ _ (by simp) ?_
    intro y hy
    simp only [List.head?_cons, Option.mem_def, Option.some.injEq] at hy
    omega
  · intro x hx y hy
    simp only [List.getLast?_cons_cons, List.getLast?_singleton, Option.mem_def,
      Option.some.injEq] at hx
    cases hc : ps.length with
    | zero =>
      rw [hc] at hy
      simp only [List.replicate_zero, List.nil_append, List.head?_cons, Option.mem_def,
        Option.some.injEq] at hy
      omega
    | succ k =>
      rw [hc, List.replicate_succ, List.cons_append, List.head?_cons] at hy
      simp only [Option.mem_def, Option.some.injEq] at hy
      omega
  · simp
  · intro x hx y hy
    simp only [List.head?_cons, Option.mem_def, Option.some.injEq] at hy
    rw [List.getLast?_append_of_ne_nil _ (by simp), List.getLast?_append_of_ne_nil _ (by simp)]
      at hx
    simp only [List.getLast?_singleton, Option.mem_def, Option.some.injEq] at hx
    omega

theorem gifEvents_stageNonDecr (tf : ℕ) (ps : List ℚ) (htf : 1 ≤ tf)
    (hpos : ∀ p ∈ ps, 0 ≤ p) (hchain : ps.Chain' (· ≤ ·)) :
    stageNonDecr (gifEvents tf ps) := by
  unfold stageNonDecr gifEvents
  obtain ⟨n, rfl⟩ : ∃ n, tf = n + 1 := ⟨tf - 1, by omega⟩
  refine List.chain'_append.mpr ⟨List.chain'_append.mpr ⟨List.chain'_append.mpr
    ⟨List.chain'_append.mpr ⟨?_, ?_, ?_⟩, ?_, ?_⟩, ?_, ?_⟩, ?_, ?_⟩
  · -- the three leading events
    refine List.chain'_cons.mpr ⟨fun _ => by norm_num, List.chain'_cons.mpr
      ⟨fun h => by simp at h, List.chain'_singleton _⟩⟩
  · -- the per-frame extracting events
    rw [List.chain'_map, List.chain'_range_succ]
    intro m _ _
    exact gifFramePercent_mono (n + 1) m
  · -- glue: extracting 0 versus the first per-frame event
    intro x hx y hy
    simp only [List.getLast?_cons_cons, List.getLast?_singleton, Option.mem_def,
      Option.some.injEq] at hx
    rw [List.range_succ_eq_map, List.map_cons, List.head?_cons] at hy
    simp only [Option.mem_def, Option.some.injEq] at hy
    subst hx
    subst hy
    intro _
    exact gifFramePercent_nonneg (n + 1) 0
  · exact List.chain'_singleton _
  · -- glue: last extracting frame versus encoding 0
    intro x hx y hy
    rw [List.getLast?_append_of_ne_nil _ (by simp)] at hx
    obtain ⟨hne, rfl⟩ := List.mem_getLast?_eq_getLast hx
    have hmem := List.getLast_mem hne
    obtain ⟨i, _, heq⟩ := List.mem_map.mp hmem
    simp only [List.head?_cons, Option.mem_def, Option.some.injEq] at hy
    subst hy
    rw [← heq]
    intro h
    simp at h
  · -- the encoder callback events
    rw [List.chain'_map]
    refine hchain.imp fun a b hab => ?_
    intro _
    exact jsRound_le_jsRound (mul_le_mul_of_nonneg_right hab (by norm_num))
  · -- glue: encoding 0 versus the first encoder callback
    intro x hx y hy
    rw [List.getLast?_append_of_ne_nil _ (by simp), List.getLast?_singleton] at hx
    simp only [Option.mem_def, Option.some.injEq] at hx
    rw [List.head?_map] at hy
    obtain ⟨p, hp, rfl⟩ := Option.map_eq_some'.mp hy
    subst hx
    intro _
    exact jsRound_nonneg (mul_nonneg (hpos p (List.mem_of_mem_head? hp)) (by norm_num))
  · simp
  · -- glue: last event of the run body versus complete 100
    intro x hx y hy
    simp only [List.head?_cons, Option.mem_def, Option.some.injEq] at hy
    subst hy
    cases ps with
    | nil =>
      simp only [List.map_nil, List.append_nil] at hx
      rw [List.getLast?_append_of_ne_nil _ (by simp), List.getLast?_singleton] at hx
      simp only [Option.mem_def, Option.some.injEq] at hx
      subst hx
      intro h
      simp at h
    | cons p ps' =>
      rw [List.getLast?_append_of_ne_nil _ (by simp)] at hx
      obtain ⟨hne, rfl⟩ := List.mem_getLast?_eq_getLast hx
      have hmem := List.getLast_mem hne
      obtain ⟨q, _, heq⟩ := List.mem_map.mp hmem
      rw [← heq]
      intro h
      simp at h

/-- C7 counterexample: the GIF pipeline's whole-run percent sequence is not
non-decreasing — a completed 1-frame run emits percents 0, 100, 0, 100, 0, 100
(percent resets to 0 at the loading-to-extracting and
extracting-to-encoding stage transitions), although its final event is
complete at 100. -/
theorem C7_progress_monotonicity_counterexample :
    ¬ nonDecr (percents (gifEvents 1 [])) ∧
    (gifEvents 1 []).getLast? = some ⟨.complete, 100⟩ := by
  constructor
  · have h1 : gifFramePercent 1 0 = 100 := by
      unfold gifFramePercent jsRound
      rw [Int.floor_eq_iff]
      norm_num
    have hp : percents (gifEvents 1 []) = [0, 100, 0, 100, 0, 100] := by
      simp [percents, gifEvents, show List.range 1 = [0] from rfl, h1]
    rw [hp]
    unfold nonDecr
    intro h
    rw [List.chain'_cons, List.chain'_cons] at h
    exact absurd h.2.1 (by norm_num)
  · exact List.getLast?_concat _

/-- C7 amended: within one successful run, the audio-split and
audio-extraction pipelines emit a non-decreasing whole-run percent sequence
ending in a complete event at 100; the GIF pipeline's percents are only
non-decreasing within each stage (they reset to 0 at stage transitions),
and its final event is also complete at 100. Engine/encoder callbacks are
assumed to report values in [0,1], non-decreasing for the GIF encoder. -/
theorem C7_progress_monotonicity_amended :
    (∀ N : ℕ, 1 ≤ N → nonDecr (percents (splitAudioEvents N)) ∧
      (splitAudioEvents N).getLast? = some ⟨.complete, 100⟩) ∧
    (∀ ps : List ℚ, (∀ p ∈ ps, 0 ≤ p ∧ p ≤ 1) →
      nonDecr (percents (extractAudioEvents ps)) ∧
      (extractAudioEvents ps).getLast? = some ⟨.complete, 100⟩) ∧
    (∀ (tf : ℕ) (ps : List ℚ), 1 ≤ tf → (∀ p ∈ ps, 0 ≤ p) → ps.Chain' (· ≤ ·) →
      stageNonDecr (gifEvents tf ps) ∧
      (gifEvents tf ps).getLast? = some ⟨.complete, 100⟩) :=
  ⟨fun N hN => ⟨splitAudioEvents_nonDecr N hN, List.getLast?_concat _⟩,
   fun ps hps => ⟨extractAudioEvents_nonDecr ps hps, List.getLast?_concat _⟩,
   fun tf ps htf hpos hch =>
     ⟨gifEvents_stageNonDecr tf ps htf hpos hch, List.getLast?_concat _⟩⟩

/-- C7 amended witness: a 2-segment audio-split run and a 1-frame GIF run. -/
theorem C7_progress_monotonicity_amended_witness :
    nonDecr (percents (splitAudioEvents 2)) ∧ stageNonDecr (gifEvents 1 []) :=
  ⟨(C7_progress_monotonicity_amended.1 2 (by norm_num)).1,
   (C7_progress_monotonicity_amended.2.2 1 [] (by norm_num) (by simp) (by simp)).1⟩

theorem padStart3_length (s : String) : 3 ≤ (padStart3 s).length := by
  unfold padStart3
  split_ifs with h
  · exact h
  · rw [String.length_append]
    simp only [String.length_mk, List.length_replicate]
    omega

theorem splitAudioFSLoop_none (ext : String) :
    ∀ r i, splitAudioFSLoop ext none i r [stagedInputName ext] = (true, []) := by
  intro r
  induction r with
  | zero =>
    intro i
    unfold splitAudioFSLoop
    rw [List.erase_cons_head]
  | succ m ih =>
    intro i
    unfold splitAudioFSLoop
    rw [if_neg (by simp)]
    have hne : ¬(stagedInputName ext == splitOutputName i ext) = true := by
      simp only [beq_iff_eq]
      intro h
      have hlen := congrArg String.length h
      have h1 : ("input." : String).length = 6 := rfl
      have h2 : ("output-segment-" : String).length = 15 := rfl
      have h3 : ("." : String).length = 1 := rfl
      have hpad := padStart3_length (toString (i + 1))
      rw [stagedInputName, splitOutputName, String.length_append, String.length_append,
        String.length_append, String.length_append, h1, h2, h3] at hlen
      omega
    have hfs : ([stagedInputName ext] ++ [splitOutputName i ext]).erase
        (splitOutputName i ext) = [stagedInputName ext] := by
      rw [List.singleton_append, List.erase_cons_tail hne, List.erase_cons_head]
    rw [hfs]
    exact ih (i + 1)

theorem splitAudioFSLoop_fail (ext : String) (k : ℕ) :
    ∀ r i, i ≤ k → k < i + r →
      splitAudioFSLoop ext (some k) i r [stagedInputName ext] =
        (false, [stagedInputName ext]) := by
  intro r
  induction r with
  | zero =>
    intro i h1 h2
    omega
  | succ m ih =>
    intro i h1 h2
    unfold splitAudioFSLoop
    by_cases hik : i = k
    · rw [if_pos (by rw [hik])]
    · rw [if_neg (by simp only [Option.some.injEq]; omega)]
      have hne : ¬(stagedInputName ext == splitOutputName i ext) = true := by
        simp only [beq_iff_eq]
        intro h
        have hlen := congrArg String.length h
        have hx1 : ("input." : String).length = 6 := rfl
        have hx2 : ("output-segment-" : String).length = 15 := rfl
        have hx3 : ("." : String).length = 1 := rfl
        have hpad := padStart3_length (toString (i + 1))
        rw [stagedInputName, splitOutputName, String.length_append, String.length_append,
          String.length_append, String.length_append, hx1, hx2, hx3] at hlen
        omega
      have hfs : ([stagedInputName ext] ++ [splitOutputName i ext]).erase
          (splitOutputName i ext) = [stagedInputName ext] := by
        rw [List.singleton_append, List.erase_cons_tail hne, List.erase_cons_head]
      rw [hfs]
      exact ih (i + 1) (by omega) (by omega)

/-- C8 counterexample: on the abort-on-first-failure path the staged input is
not deleted — a 3-segment split whose second ffmpeg invocation fails leaves
`"input.mp3"` in the virtual filesystem, and a failing audio extraction
leaves `"input.mp4"`. -/
theorem C8_cleanup_counterexample :
    splitAudioFS 3 "mp3" (some 1) = (false, ["input.mp3"]) ∧
    (["input.mp3"] : List String) ≠ [] ∧
    extractAudioFS "mp4" "mp3" true = (false, ["input.mp4"]) := by
  refine ⟨by decide, by simp, by decide⟩

/-- C8 amended: on the success path every staged input and output entry is
deleted before the run ends, for both the audio splitter and the audio
extractor; on the error path (an ffmpeg invocation fails) the staged input
entry is left behind in the engine's virtual filesystem. -/
theorem C8_cleanup_amended (N : ℕ) (ext fmt : String) (k : ℕ) (hk : k < N) :
    splitAudioFS N ext none = (true, []) ∧
    splitAudioFS N ext (some k) = (false, [stagedInputName ext]) ∧
    extractAudioFS ext fmt false = (true, []) ∧
    extractAudioFS ext fmt true = (false, [stagedInputName ext]) := by
  refine ⟨splitAudioFSLoop_none ext N 0,
    splitAudioFSLoop_fail ext k N 0 (by omega) (by omega), ?_, rfl⟩
  simp only [extractAudioFS, if_neg (by simp : ¬(false = true))]
  rw [List.singleton_append, List.erase_cons_head, List.erase_cons_head]

/-- C8 amended witness: a 2-segment split succeeding, failing at segment 0,
and both extraction outcomes, with concrete extensions. -/
theorem C8_cleanup_amended_witness :
    splitAudioFS 2 "mp3" none = (true, []) ∧
    splitAudioFS 2 "mp3" (some 0) = (false, [stagedInputName "mp3"]) ∧
    extractAudioFS "mp4" "wav" false = (true, []) :=
  ⟨(C8_cleanup_amended 2 "mp3" "wav" 0 (by norm_num)).1,
   (C8_cleanup_amended 2 "mp3" "wav" 0 (by norm_num)).2.1,
   (C8_cleanup_amended 2 "mp4" "wav" 0 (by norm_num)).2.2.1⟩

theorem acquireEntry_hit {m : ModState} {v : ℕ} (h : m.inst = some v) :
    acquireEntry m = (m, .ret v) := by
  unfold acquireEntry
  rw [h]

theorem acquireEntry_join {m : ModState} (h : m.inst = none)
    (hc : (m.loading && m.promise) = true) : acquireEntry m = (m, .waiting) := by
  unfold acquireEntry
  rw [h]
  simp [hc]

theorem acquireEntry_start {m : ModState} (h : m.inst = none)
    (hc : (m.loading && m.promise) = false) :
    acquireEntry m = ({ inst := none
                        loading := true
                        promise := true
                        pending := some m.created
                        created := m.created + 1
                        starts := m.starts + 1 }, .waiting) := by
  unfold acquireEntry
  rw [h]
  simp [hc]

theorem sysInv_init : SysInv initSys := by
  refine ⟨rfl, ?_, ?_, Or.inl ⟨rfl, rfl, rfl, rfl⟩⟩
  · intro v h
    simp [initSys] at h
  · intro v h
    simp [initSys] at h

theorem sysInv_step {s t : Sys} (hs : SysInv s) (hst : Step s t) : SysInv t := by
  obtain ⟨hcs, hra, hrb, hdisj⟩ := hs
  cases hst with
  | enterA ha =>
    rcases hinst : s.m.inst with _ | v
    · by_cases hc : (s.m.loading && s.m.promise) = true
      · rw [acquireEntry_join hinst hc]
        refine ⟨hcs, ?_, hrb, ?_⟩
        · intro v h
          simp at h
        · rcases hdisj with ⟨h0, hm, ha', hb'⟩ | hright
          · rw [hm] at hc
            simp [initMod] at hc
          · exact Or.inr hright
      · simp only [Bool.not_eq_true] at hc
        rw [acquireEntry_start hinst hc]
        rcases hdisj with ⟨h0, hm, ha', hb'⟩ | ⟨h1, hprom, ⟨hp, hl, hi⟩ | ⟨hp, hl, hi⟩⟩
        · refine ⟨by simp [hcs], ?_, ?_, Or.inr ⟨by simp [h0], rfl, Or.inl ⟨?_, rfl, rfl⟩⟩⟩
          · intro v h
            simp at h
          · intro v h
            rw [hb'] at h
            simp at h
          · simp [hm, initMod]
        · rw [hl, hprom] at hc
          simp at hc
        · rw [hi] at hinst
          exact Option.noConfusion hinst
    · rw [acquireEntry_hit hinst]
      have hv0 : v = 0 := by
        rcases hdisj with ⟨h0, hm, _, _⟩ | ⟨h1, hprom, ⟨hp, hl, hi⟩ | ⟨hp, hl, hi⟩⟩
        · rw [hm] at hinst
          simp [initMod] at hinst
        · rw [hi] at hinst
          exact Option.noConfusion hinst
        · rw [hi] at hinst
          exact (Option.some.inj hinst).symm
      subst hv0
      refine ⟨hcs, ?_, hrb, ?_⟩
      · intro u h
        simp at h
        exact ⟨h.symm, hinst⟩
      · rcases hdisj with ⟨h0, hm, _, _⟩ | hright
        · rw [hm] at hinst
          simp [initMod] at hinst
        · exact Or.inr hright
  | enterB hb =>
    rcases hinst : s.m.inst with _ | v
    · by_cases hc : (s.m.loading && s.m.promise) = true
      · rw [acquireEntry_join hinst hc]
        refine ⟨hcs, hra, ?_, ?_⟩
        · intro v h
          simp at h
        · rcases hdisj with ⟨h0, hm, ha', hb'⟩ | hright
          · rw [hm] at hc
            simp [initMod] at hc
          · exact Or.inr hright
      · simp only [Bool.not_eq_true] at hc
        rw [acquireEntry_start hinst hc]
        rcases hdisj with ⟨h0, hm, ha', hb'⟩ | ⟨h1, hprom, ⟨hp, hl, hi⟩ | ⟨hp, hl, hi⟩⟩
        · refine ⟨by simp [hcs], ?_, ?_, Or.inr ⟨by simp [h0], rfl, Or.inl ⟨?_, rfl, rfl⟩⟩⟩
          · intro v h
            rw [ha'] at h
            simp at h
          · intro v h
            simp at h
          · simp [hm, initMod]
        · rw [hl, hprom] at hc
          simp at hc
        · rw [hi] at hinst
          exact Option.noConfusion hinst
    · rw [acquireEntry_hit hinst]
      have hv0 : v = 0 := by
        rcases hdisj with ⟨h0, hm, _, _⟩ | ⟨h1, hprom, ⟨hp, hl, hi⟩ | ⟨hp, hl, hi⟩⟩
        · rw [hm] at hinst
          simp [initMod] at hinst
        · rw [hi] at hinst
          exact Option.noConfusion hinst
        · rw [hi] at hinst
          exact (Option.some.inj hinst).symm
      subst hv0
      refine ⟨hcs, hra, ?_, ?_⟩
      · intro u h
        simp at h
        exact ⟨h.symm, hinst⟩
      · rcases hdisj with ⟨h0, hm, _, _⟩ | hright
        · rw [hm] at hinst
          simp [initMod] at hinst
        · exact Or.inr hright
  | finish e hp =>
    rcases hdisj with ⟨h0, hm, ha', hb'⟩ | ⟨h1, hprom, ⟨hpend, hl, hi⟩ | ⟨hpend, hl, hi⟩⟩
    · rw [hm] at hp
      simp [initMod] at hp
    · have he0 : e = 0 := by
        rw [hpend] at hp
        exact (Option.some.inj hp).symm
      subst he0
      refine ⟨hcs, ?_, ?_, Or.inr ⟨h1, hprom, Or.inr ⟨rfl, rfl, rfl⟩⟩⟩
      · intro v h
        exact ⟨(hra v h).1, rfl⟩
      · intro v h
        exact ⟨(hrb v h).1, rfl⟩
    · rw [hpend] at hp
      exact Option.noConfusion hp
  | wakeA v h1 h2 h3 =>
    have hv0 : v = 0 := by
      rcases hdisj with ⟨h0, hm, _, _⟩ | ⟨h1', hprom, ⟨hpend, hl, hi⟩ | ⟨hpend, hl, hi⟩⟩
      · rw [hm] at h3
        simp [initMod] at h3
      · rw [hi] at h3
        exact Option.noConfusion h3
      · rw [hi] at h3
        exact (Option.some.inj h3).symm
    subst hv0
    refine ⟨hcs, ?_, hrb, ?_⟩
    · intro u h
      simp at h
      exact ⟨h.symm, h3⟩
    · rcases hdisj with ⟨h0, hm, _, _⟩ | hright
      · rw [hm] at h3
        simp [initMod] at h3
      · exact Or.inr hright
  | wakeB v h1 h2 h3 =>
    have hv0 : v = 0 := by
      rcases hdisj with ⟨h0, hm, _, _⟩ | ⟨h1', hprom, ⟨hpend, hl, hi⟩ | ⟨hpend, hl, hi⟩⟩
      · rw [hm] at h3
        simp [initMod] at h3
      · rw [hi] at h3
        exact Option.noConfusion h3
      · rw [hi] at h3
        exact (Option.some.inj h3).symm
    subst hv0
    refine ⟨hcs, hra, ?_, ?_⟩
    · intro u h
      simp at h
      exact ⟨h.symm, h3⟩
    · rcases hdisj with ⟨h0, hm, _, _⟩ | hright
      · rw [hm] at h3
        simp [initMod] at h3
      · exact Or.inr hright

theorem sysInv_reachable {s : Sys} (h : Reachable s) : SysInv s := by
  induction h with
  | refl => exact sysInv_init
  | tail _ hstep ih => exact sysInv_step ih hstep

theorem acquireDoneSys_reachable : Reachable acquireDoneSys := by
  have t1 : Step initSys
      ⟨⟨none, true, true, some 0, 1, 1⟩, .waiting, .entry⟩ :=
    Step.enterA initSys rfl
  have t2 : Step ⟨⟨none, true, true, some 0, 1, 1⟩, .waiting, .entry⟩
      ⟨⟨some 0, false, true, none, 1, 1⟩, .waiting, .entry⟩ :=
    Step.finish _ 0 rfl
  have t3 : Step ⟨⟨some 0, false, true, none, 1, 1⟩, .waiting, .entry⟩
      acquireDoneSys :=
    Step.wakeA _ 0 rfl rfl rfl
  exact Relation.ReflTransGen.head t1 (Relation.ReflTransGen.head t2
    (Relation.ReflTransGen.head t3 Relation.ReflTransGen.refl))

theorem bothDoneSys_reachable : Reachable bothDoneSys := by
  have t4 : Step acquireDoneSys bothDoneSys := Step.enterB _ rfl
  exact Relation.ReflTransGen.tail acquireDoneSys_reachable t4

/-- C2 counterexample: the engine singleton is module-scoped, not
process-wide — the audio-splitter module and the audio-extractor module
each hold their own `ffmpegInstance`, so a page that runs an audio split
and an audio extraction reaches a state in which two engine instances have
been created during the page lifetime, refuting "no second engine instance
is ever created". -/
theorem C2_engine_singleton_counterexample :
    PageReachable (acquireDoneSys, acquireDoneSys) ∧
    pageEnginesCreated (acquireDoneSys, acquireDoneSys) = 2 := by
  constructor
  · have hleft : Relation.ReflTransGen PageStep (initSys, initSys)
        (acquireDoneSys, initSys) :=
      Relation.ReflTransGen.lift (fun s => ((s, initSys) : Sys × Sys))
        (fun a b h => Or.inl ⟨h, rfl⟩) acquireDoneSys_reachable
    have hright : Relation.ReflTransGen PageStep (acquireDoneSys, initSys)
        (acquireDoneSys, acquireDoneSys) :=
      Relation.ReflTransGen.lift (fun s => ((acquireDoneSys, s) : Sys × Sys))
        (fun a b h => Or.inr ⟨h, rfl⟩) acquireDoneSys_reachable
    exact Relation.ReflTransGen.trans hleft hright
  · rfl

/-- C2 amended: each tool module holds its own module-scoped engine
singleton; within one module, at most one load sequence is ever started
(so at most one engine instance is created, with concurrent `acquire`
calls joining the in-flight load), and any two callers that complete
receive the same engine instance. -/
theorem C2_engine_singleton_amended (s : Sys) (h : Reachable s) :
    s.m.starts ≤ 1 ∧ s.m.created ≤ 1 ∧
    (∀ u v : ℕ, s.a = .ret u → s.b = .ret v → u = v) := by
  obtain ⟨hcs, hra, hrb, hdisj⟩ := sysInv_reachable h
  have hstarts : s.m.starts ≤ 1 := by
    rcases hdisj with ⟨h0, _⟩ | ⟨h1, _⟩
    · omega
    · omega
  refine ⟨hstarts, by omega, ?_⟩
  intro u v hu hv
  rw [(hra u hu).1, (hrb v hv).1]

/-- C2 amended witness: the completed two-caller run of one module. -/
theorem C2_engine_singleton_amended_witness :
    bothDoneSys.m.starts ≤ 1 ∧ bothDoneSys.m.created ≤ 1 ∧ (0 : ℕ) = 0 := by
  have h := C2_engine_singleton_amended bothDoneSys bothDoneSys_reachable
  exact ⟨h.1, h.2.1, h.2.2 0 0 rfl rfl⟩
